import Mathlib

/-!
A verification development for the retrieval-augmented context engine of the
SnackSage repository (`backend/services/ragService.js`): the document chunker
(`splitIntoChunks`), the cosine-similarity retriever
(`retrieveRelevantChunks`), the context assembler (`getContext`) and the
prompt formatter (`formatContextForPrompt`), together with the service's
build entry point (`initialize`, modelled here as `initializeService`).

Modelling conventions, shared by all definitions below:

* JavaScript strings are modelled as `List Char` (`Str`).
* JavaScript numbers are modelled as exact rationals extended with the IEEE
  special values `NaN` and `±Infinity` (`JSNum`).  The service's arithmetic
  (sums, products) stays inside the rationals; the one place a special value
  can arise in this code is the final division of `cosineSimilarity`, which
  is modelled by `jsDiv` with the JavaScript semantics `0/0 = NaN`,
  `x/0 = ±Infinity`.
* `Math.sqrt` is not exactly representable over ℚ, so it is a parameter
  `msqrt : ℚ → ℚ` threaded through the retrieval pipeline; theorems assume
  of it only facts that the IEEE correctly-rounded square root satisfies
  at the inputs in question (for example `msqrt 1 = 1`).
* The Gemini embedding provider and the PDF text extractor are external
  collaborators: an embedding call is a parameter `Str → Option (List ℚ)`
  (`none` models a thrown provider error) and `initialize` receives the
  already-extracted text.
* `Array.prototype.sort` with the comparator
  `(a, b) => b.similarity - a.similarity` is modelled as the stable sort by
  that comparator (`sortScores`, a stable insertion sort): ES2019 requires
  the sort to be stable, and for a consistent comparator every stable sort
  yields the same list.  Following the ECMAScript SortCompare step, a
  comparator value of `NaN` is treated as `+0` (elements compare equal).
* `Array.prototype.slice(0, end)` with a possibly negative `end` is
  `jsSliceTo`; `words.slice(-k)` (where `-0` is `+0` and selects the whole
  array) is `jsSliceLast`.
* `Number.prototype.toFixed(3)` is `toFixed3`, following the ECMAScript
  algorithm on exact rationals: take the sign apart, pick the integer `n`
  closest to `|x|·1000` (ties upward), and render `n` with three fraction
  digits.
-/

namespace RAG

/-- JavaScript strings as lists of characters. -/
abbrev Str := List Char

/-- Lift a Lean string literal into the model. -/
def strL (s : String) : Str := s.toList

/-! ## JavaScript numbers -/

/-- A JavaScript number: an exact rational, or one of the IEEE special
values that this code can produce. -/
inductive JSNum where
  | real : ℚ → JSNum
  | posInf : JSNum
  | negInf : JSNum
  | nan : JSNum
deriving DecidableEq

/-- JavaScript subtraction `x - y` on the model, used only to model the sort
comparator `b.similarity - a.similarity`.  `NaN` propagates; `∞ - ∞ = NaN`. -/
def jsub : JSNum → JSNum → JSNum
  | .nan, _ => .nan
  | _, .nan => .nan
  | .real a, .real b => .real (a - b)
  | .real _, .posInf => .negInf
  | .real _, .negInf => .posInf
  | .posInf, .real _ => .posInf
  | .negInf, .real _ => .negInf
  | .posInf, .negInf => .posInf
  | .negInf, .posInf => .negInf
  | .posInf, .posInf => .nan
  | .negInf, .negInf => .nan

/-- The sign ECMAScript's SortCompare extracts from a comparator value:
negative, zero or positive, with `NaN` treated as `+0`. -/
def cmpSign : JSNum → ℤ
  | .real x => if x < 0 then -1 else if 0 < x then 1 else 0
  | .posInf => 1
  | .negInf => -1
  | .nan => 0

/-- `sortBefore a b` is true when an element with similarity `a` must be
placed strictly before one with similarity `b` by the source's comparator
`(a, b) => b.similarity - a.similarity`: the comparator value is negative. -/
def sortBefore (a b : JSNum) : Bool := cmpSign (jsub b a) < 0

/-- JavaScript division of two finite numbers: `0/0 = NaN`,
`x/0 = ±Infinity` for `x ≠ 0`, ordinary rational division otherwise. -/
def jsDiv (a b : ℚ) : JSNum :=
  if b = 0 then (if a = 0 then .nan else if 0 < a then .posInf else .negInf)
  else .real (a / b)

/-! ## The RAG service's pure helpers -/

/-- `vecA.reduce((sum, a, i) => sum + a * vecB[i], 0)`.  Modelled over the
zip of the two vectors, which agrees with the source whenever `vecB` is at
least as long as `vecA` — in the service every embedding comes from the same
provider and shares one dimensionality (§3 of the spec). -/
def dotProduct (vecA vecB : List ℚ) : ℚ :=
  (vecA.zip vecB).foldl (fun sum p => sum + p.1 * p.2) 0

/-- `vec.reduce((sum, a) => sum + a * a, 0)`: the squared magnitude, the
quantity the source passes to `Math.sqrt`. -/
def sumSq (vec : List ℚ) : ℚ := vec.foldl (fun sum a => sum + a * a) 0

/-- `RAGService.cosineSimilarity`:
`dotProduct / (Math.sqrt(sumSq A) * Math.sqrt(sumSq B))`, with `Math.sqrt`
the parameter `msqrt` and the division the JavaScript division `jsDiv`. -/
def cosineSimilarity (msqrt : ℚ → ℚ) (vecA vecB : List ℚ) : JSNum :=
  jsDiv (dotProduct vecA vecB) (msqrt (sumSq vecA) * msqrt (sumSq vecB))

/-! ## Sentence matching

`text.match(/[^.!?]+[.!?]+/g)` scans left to right for a maximal run of
non-terminator characters followed by a maximal non-empty run of the
terminators `.`, `!`, `?`.  Unmatched leading terminators and a trailing
unterminated run are part of no match.  `sentLoop` is that scan as a single
pass with reversed accumulators (`revBody` the pending non-terminator run,
`revTerms` the pending terminator run). -/

/-- `.`, `!` or `?`: the sentence terminators of the source's regex. -/
def isTerm (c : Char) : Bool := c = '.' || c = '!' || c = '?'

/-- One left-to-right pass of the global regex match (see the section
comment).  A sentence is emitted each time a terminator run ends. -/
def sentLoop : Str → Str → Str → List Str
  | [], revBody, revTerms =>
    if revTerms.isEmpty then [] else [(revTerms ++ revBody).reverse]
  | c :: rest, revBody, revTerms =>
    if isTerm c then
      if revBody.isEmpty && revTerms.isEmpty then sentLoop rest [] []
      else sentLoop rest revBody (c :: revTerms)
    else
      if revTerms.isEmpty then sentLoop rest (c :: revBody) []
      else (revTerms ++ revBody).reverse :: sentLoop rest [c] []

/-- `text.match(/[^.!?]+[.!?]+/g) || [text]`: the matched sentences, or the
whole text as the single "sentence" when there is no match. -/
def sentences (text : Str) : List Str :=
  let m := sentLoop text [] []
  if m.isEmpty then [text] else m

/-! ## Chunking -/

/-- JavaScript whitespace for `trim`, restricted to the ASCII whitespace
characters that occur in this pipeline. -/
def wsChar (c : Char) : Bool := c.isWhitespace

/-- `String.prototype.trim`. -/
def trim (s : Str) : Str :=
  ((s.dropWhile wsChar).reverse.dropWhile wsChar).reverse

/-- `str.split(' ')`: split on every single space, keeping empty pieces. -/
def splitOnSpace : Str → List Str
  | [] => [[]]
  | c :: rest =>
    if c = ' ' then [] :: splitOnSpace rest
    else
      match splitOnSpace rest with
      | [] => [[c]]
      | w :: ws => (c :: w) :: ws

/-- `arr.join(sep)`. -/
def joinSep (sep : Str) : List Str → Str
  | [] => []
  | [x] => x
  | x :: y :: rest => x ++ sep ++ joinSep sep (y :: rest)

/-- `words.join(' ')`. -/
def joinSp (words : List Str) : Str := joinSep [' '] words

/-- `arr.slice(-k)`: the last `k` elements — except that `k = 0` gives
`arr.slice(-0) = arr.slice(0)`, the whole array (JavaScript `-0` is `+0`). -/
def jsSliceLast (k : ℕ) (l : List α) : List α :=
  if k = 0 then l else l.drop (l.length - k)

/-- The overlap seed the source prepends to the buffer after a split:
`words.slice(-Math.floor(overlap / 5)).join(' ') + ' '` where
`words = currentChunk.split(' ')`. -/
def seedOf (overlap : ℕ) (buf : Str) : Str :=
  joinSp (jsSliceLast (overlap / 5) (splitOnSpace buf)) ++ [' ']

/-- The sentence loop of `RAGService.splitIntoChunks`: accumulate sentences
into `cur`; when appending the next sentence would overflow `chunkSize` and
`cur` is non-empty, emit `cur.trim()` and reseed the buffer with the overlap
tail followed by the triggering sentence.  Returns the emitted chunks and
the final buffer. -/
def splitLoop (chunkSize overlap : ℕ) : List Str → Str → List Str × Str
  | [], cur => ([], cur)
  | s :: rest, cur =>
    if (cur ++ s).length > chunkSize ∧ 0 < cur.length then
      let r := splitLoop chunkSize overlap rest (seedOf overlap cur ++ s)
      (trim cur :: r.1, r.2)
    else splitLoop chunkSize overlap rest (cur ++ s)

/-- `RAGService.splitIntoChunks(text, chunkSize, overlap)`: run the sentence
loop from an empty buffer, then flush the final buffer if its trim is
non-empty. -/
def splitIntoChunks (text : Str) (chunkSize overlap : ℕ) : List Str :=
  let r := splitLoop chunkSize overlap (sentences text) []
  if 0 < (trim r.2).length then r.1 ++ [trim r.2] else r.1

/-! ## The service state and its operations -/

/-- A record of `this.documentChunks`: `{ id, text, embedding }`. -/
structure Chunk where
  id : ℕ
  text : Str
  embedding : List ℚ
deriving DecidableEq

/-- A scored chunk `{ ...chunk, similarity }` as built by
`retrieveRelevantChunks`. -/
structure Scored where
  id : ℕ
  text : Str
  embedding : List ℚ
  similarity : JSNum
deriving DecidableEq

/-- An element of `getContext`'s result: `{ text, similarity }` with the
similarity already rendered as a string by `toFixed(3)`. -/
structure CtxItem where
  text : Str
  similarity : Str
deriving DecidableEq

/-- The mutable instance state of `RAGService`: `this.documentChunks` and
`this.initialized`. -/
structure RAGState where
  documentChunks : List Chunk
  initialized : Bool
deriving DecidableEq

/-- The state the constructor leaves behind. -/
def initState : RAGState := ⟨[], false⟩

/-- The errors the service throws: the explicit not-initialized guard, and a
propagated embedding-provider failure. -/
inductive RagError where
  | notInitialized
  | embeddingFailed
deriving DecidableEq

/-- The embedding loop of `RAGService.initialize`: for each chunk in order,
call the provider and append `{ id: i, text, embedding }` to
`this.documentChunks`.  A provider failure (`none`) aborts the loop with the
state as mutated so far — the `catch` block only logs and rethrows, it does
not undo the appends.  Only a completed loop sets `this.initialized = true`.
The returned `Bool` is `true` iff the call completed without throwing. -/
def buildLoop (embedF : Str → Option (List ℚ)) :
    List Str → ℕ → RAGState → RAGState × Bool
  | [], _, st => ({ st with initialized := true }, true)
  | c :: rest, i, st =>
    match embedF c with
    | none => (st, false)
    | some e =>
      buildLoop embedF rest (i + 1)
        { st with documentChunks := st.documentChunks ++ [⟨i, c, e⟩] }

/-- `RAGService.initialize(pdfPath)` with the PDF text already extracted
(text extraction is an external collaborator): chunk the text with the fixed
policy constants 1000 and 200 and run the embedding loop from id 0.  Note
that `this.documentChunks` is never cleared: the loop appends onto whatever
the state already holds. -/
def initializeService (embedF : Str → Option (List ℚ)) (st : RAGState)
    (text : Str) : RAGState × Bool :=
  buildLoop embedF (splitIntoChunks text 1000 200) 0 st

/-- `scores.slice(0, topK)`: JavaScript `slice` with a signed end index — a
negative `end` counts from the end of the array (`max(len + end, 0)`). -/
def jsSliceTo (l : List α) (e : ℤ) : List α :=
  if e < 0 then l.take ((l.length : ℤ) + e).toNat else l.take e.toNat

/-- Stable insertion of a later element into the already-sorted prefix:
the new element is placed before the first element it must strictly precede
(`sortBefore`), hence after every element whose comparator value ties. -/
def insertDesc (c : Scored) : List Scored → List Scored
  | [] => [c]
  | x :: xs =>
    if sortBefore c.similarity x.similarity then c :: x :: xs
    else x :: insertDesc c xs

/-- `scores.sort((a, b) => b.similarity - a.similarity)`: the stable sort by
the source's comparator (see the header comment on sort modelling). -/
def sortScores (l : List Scored) : List Scored :=
  l.foldl (fun acc c => insertDesc c acc) []

/-- The source's `const scores = this.documentChunks.map(chunk => ({
...chunk, similarity: this.cosineSimilarity(queryEmbedding,
chunk.embedding) }))`. -/
def scoredChunks (msqrt : ℚ → ℚ) (qe : List ℚ) (st : RAGState) : List Scored :=
  st.documentChunks.map fun c =>
    ⟨c.id, c.text, c.embedding, cosineSimilarity msqrt qe c.embedding⟩

/-- `RAGService.retrieveRelevantChunks(query, topK)`: guard on
`this.initialized`, embed the query, score every chunk with
`cosineSimilarity`, sort by similarity descending, return the first
`topK`. -/
def retrieveRelevantChunks (msqrt : ℚ → ℚ) (embedF : Str → Option (List ℚ))
    (st : RAGState) (query : Str) (topK : ℤ) : Except RagError (List Scored) :=
  if !st.initialized then .error .notInitialized
  else
    match embedF query with
    | none => .error .embeddingFailed
    | some qe => .ok (jsSliceTo (sortScores (scoredChunks msqrt qe st)) topK)

/-- Digit characters of `n` in base 10 (most significant first), with a
structural fuel argument so the definition evaluates by `decide`. -/
def natCharsCore : ℕ → ℕ → Str → Str
  | 0, _, acc => acc
  | fuel + 1, n, acc =>
    if n < 10 then Nat.digitChar n :: acc
    else natCharsCore fuel (n / 10) (Nat.digitChar (n % 10) :: acc)

/-- The decimal rendering of a natural number. -/
def natChars (n : ℕ) : Str := natCharsCore (n + 1) n []

/-- `Number.prototype.toFixed(3)` on the model, following the ECMAScript
algorithm: render the sign, then the integer `n` closest to `|x|·1000`
(ties toward the larger `n`) as `⌊n/1000⌋.d₂d₁d₀`. -/
def toFixed3 : JSNum → Str
  | .nan => strL "NaN"
  | .posInf => strL "Infinity"
  | .negInf => strL "-Infinity"
  | .real q =>
    let sign : Str := if q < 0 then ['-'] else []
    let y : ℚ := if q < 0 then -q else q
    let n : ℕ := (⌊y * 1000 + 1/2⌋ : ℤ).toNat
    sign ++ natChars (n / 1000) ++
      '.' :: [Nat.digitChar (n / 100 % 10), Nat.digitChar (n / 10 % 10),
        Nat.digitChar (n % 10)]

/-- `RAGService.getContext(query, topK)`: retrieve, then project each scored
chunk to `{ text, similarity: similarity.toFixed(3) }`. -/
def getContext (msqrt : ℚ → ℚ) (embedF : Str → Option (List ℚ))
    (st : RAGState) (query : Str) (topK : ℤ) : Except RagError (List CtxItem) :=
  (retrieveRelevantChunks msqrt embedF st query topK).map fun l =>
    l.map fun c => ⟨c.text, toFixed3 c.similarity⟩

/-- `chunks.map((chunk, index) => ...)` with the running index. -/
def mapIdxFrom (f : ℕ → α → β) : ℕ → List α → List β
  | _, [] => []
  | i, a :: l => f i a :: mapIdxFrom f (i + 1) l

/-- One rendered block of `formatContextForPrompt`:
`` `[Context ${index + 1}] (Relevance: ${chunk.similarity})\n${chunk.text}` ``. -/
def ctxBlock (i : ℕ) (c : CtxItem) : Str :=
  strL "[Context " ++ natChars (i + 1) ++ strL "] (Relevance: " ++
    c.similarity ++ strL ")\n" ++ c.text

/-- The fixed sentinel returned on an empty result sequence. -/
def noContextMsg : Str := strL "No relevant context found in the knowledge base."

/-- `RAGService.formatContextForPrompt(chunks)`: the sentinel on an empty
sequence, otherwise the 1-indexed blocks joined by `'\n\n---\n\n'`.  (The
source's `!chunks` null guard has no counterpart: a `List` is never null.) -/
def formatContextForPrompt (chunks : List CtxItem) : Str :=
  if chunks.length = 0 then noContextMsg
  else joinSep (strL "\n\n---\n\n") (mapIdxFrom ctxBlock 0 chunks)

/-! ## Specification-side vocabulary used only in theorem statements -/

/-- Both similarities are finite and the first is at least the second: the
descending-sortedness relation of the ranking claims. -/
def simGe (u v : Scored) : Prop :=
  ∃ x y : ℚ, u.similarity = .real x ∧ v.similarity = .real y ∧ y ≤ x

/-- Ties in similarity are ordered by ascending chunk id. -/
def tieLt (u v : Scored) : Prop := u.similarity = v.similarity → u.id < v.id

/-- The chunk's similarity is a finite number. -/
def isRealSim (u : Scored) : Prop := ∃ x : ℚ, u.similarity = .real x

/-- Concatenate a run of chunk buffers, dropping from each one the overlap
seed it inherited from its predecessor (specification helper for the
chunk-coverage claim). -/
def stripSeeds (overlap : ℕ) : Str → List Str → Str
  | _, [] => []
  | prev, b :: bs => b.drop (seedOf overlap prev).length ++ stripSeeds overlap b bs

/-- The square-root model used by concrete witnesses: exact on the perfect
squares that occur in them, and within the bounds the correctly rounded
`Math.sqrt` satisfies at `0.98`. -/
def sqrtModel : ℚ → ℚ :=
  fun x => if x = 1 then 1 else if x = 49/50 then 99/100 else 0

/-! ## Theorems -/

/-- The embedding loop only ever appends to `this.documentChunks`. -/
theorem buildLoop_append (embedF : Str → Option (List ℚ)) :
    ∀ (cs : List Str) (i : ℕ) (st : RAGState),
      ∃ appended, (buildLoop embedF cs i st).1.documentChunks =
        st.documentChunks ++ appended := by
  intro cs
  induction cs with
  | nil => intro i st; exact ⟨[], by simp [buildLoop]⟩
  | cons c rest ih =>
    intro i st
    cases h : embedF c with
    | none => exact ⟨[], by simp [buildLoop, h]⟩
    | some e =>
      obtain ⟨new, hnew⟩ := ih (i + 1)
        { st with documentChunks := st.documentChunks ++ [⟨i, c, e⟩] }
      exact ⟨⟨i, c, e⟩ :: new, by simp [buildLoop, h, hnew]⟩

/-- A failed embedding loop leaves `this.initialized` as it was. -/
theorem buildLoop_fail_initialized (embedF : Str → Option (List ℚ)) :
    ∀ (cs : List Str) (i : ℕ) (st : RAGState),
      (buildLoop embedF cs i st).2 = false →
      (buildLoop embedF cs i st).1.initialized = st.initialized := by
  intro cs
  induction cs with
  | nil => intro i st h; simp [buildLoop] at h
  | cons c rest ih =>
    intro i st h
    cases he : embedF c with
    | none => simp [buildLoop, he]
    | some e =>
      have := ih (i + 1)
        { st with documentChunks := st.documentChunks ++ [⟨i, c, e⟩] }
      simp only [buildLoop, he] at h ⊢
      exact this h

/-- A completed embedding loop reports `this.initialized = true`. -/
theorem buildLoop_ok_initialized (embedF : Str → Option (List ℚ)) :
    ∀ (cs : List Str) (i : ℕ) (st : RAGState),
      (buildLoop embedF cs i st).2 = true →
      (buildLoop embedF cs i st).1.initialized = true := by
  intro cs
  induction cs with
  | nil => intro i st _; simp [buildLoop]
  | cons c rest ih =>
    intro i st h
    cases he : embedF c with
    | none => simp [buildLoop, he] at h
    | some e =>
      have := ih (i + 1)
        { st with documentChunks := st.documentChunks ++ [⟨i, c, e⟩] }
      simp only [buildLoop, he] at h ⊢
      exact this h

/-- Retrieval on a non-ready state throws the not-initialized error. -/
theorem retrieve_not_ready (msqrt : ℚ → ℚ) (embedF : Str → Option (List ℚ))
    (st : RAGState) (query : Str) (topK : ℤ) (h : st.initialized = false) :
    retrieveRelevantChunks msqrt embedF st query topK =
      .error .notInitialized := by
  simp [retrieveRelevantChunks, h]

/-- Retrieval on a ready state with a successful query embedding returns the
sorted, sliced scores of the full current chunk list. -/
theorem retrieve_ready (msqrt : ℚ → ℚ) (embedF : Str → Option (List ℚ))
    (st : RAGState) (query : Str) (topK : ℤ) (qe : List ℚ)
    (h : st.initialized = true) (hq : embedF query = some qe) :
    retrieveRelevantChunks msqrt embedF st query topK =
      .ok (jsSliceTo (sortScores (scoredChunks msqrt qe st)) topK) := by
  simp [retrieveRelevantChunks, h, hq]

/-- `getContext` propagates retrieval errors unchanged. -/
theorem getContext_error (msqrt : ℚ → ℚ) (embedF : Str → Option (List ℚ))
    (st : RAGState) (query : Str) (topK : ℤ) (e : RagError)
    (h : retrieveRelevantChunks msqrt embedF st query topK = .error e) :
    getContext msqrt embedF st query topK = .error e := by
  simp [getContext, h, Except.map]

/-- C1, counterexample.  The claim asserts that a second `initialize` on an
already-ready index re-builds from scratch, replacing the prior chunk set.
On the code, a ready one-chunk index re-initialized with a document that
chunks to the single chunk `"a.b."` ends with BOTH chunks (the old one
first, the new one appended with a duplicate id 0): `documentChunks` is
never cleared, so the build accumulates instead of replacing. -/
theorem c1_counterexample :
    (initializeService (fun _ => some [1])
        ⟨[⟨0, strL "old", [1]⟩], true⟩ (strL "a.b.")).2 = true ∧
    (initializeService (fun _ => some [1])
        ⟨[⟨0, strL "old", [1]⟩], true⟩ (strL "a.b.")).1.documentChunks =
      [⟨0, strL "old", [1]⟩, ⟨0, strL "a.b.", [1]⟩] ∧
    (initializeService (fun _ => some [1])
        ⟨[⟨0, strL "old", [1]⟩], true⟩ (strL "a.b.")).1.documentChunks ≠
      [⟨0, strL "a.b.", [1]⟩] := by
  have h : splitIntoChunks (strL "a.b.") 1000 200 = [strL "a.b."] := by decide
  have h2 : initializeService (fun _ => some [1])
      ⟨[⟨0, strL "old", [1]⟩], true⟩ (strL "a.b.") =
      buildLoop (fun _ => some [1]) [strL "a.b."] 0
        ⟨[⟨0, strL "old", [1]⟩], true⟩ := by
    unfold initializeService; rw [h]
  rw [h2]
  refine ⟨rfl, rfl, ?_⟩
  intro hbad
  simpa [buildLoop] using congrArg List.length hbad

/-- C1, amended.  `initialize` only ever appends onto the existing chunk
list (never replaces it); a failed build leaves `initialized` as it was, so
on an index that has never been successfully initialized a failed build is
not observable through `retrieveRelevantChunks`/`getContext` (both throw
the not-initialized error); but an already-ready index stays ready through
any re-initialization, failed or not, so a failed rebuild leaves its
partially-appended chunks observable to queries. -/
theorem c1_amended :
    (∀ (embedF : Str → Option (List ℚ)) (st : RAGState) (text : Str),
      ∃ appended, (initializeService embedF st text).1.documentChunks =
        st.documentChunks ++ appended) ∧
    (∀ (embedF : Str → Option (List ℚ)) (st : RAGState) (text : Str),
      (initializeService embedF st text).2 = false →
      (initializeService embedF st text).1.initialized = st.initialized) ∧
    (∀ (embedF : Str → Option (List ℚ)) (st : RAGState) (text : Str),
      st.initialized = false →
      (initializeService embedF st text).2 = false →
      ∀ (msqrt : ℚ → ℚ) (embedF2 : Str → Option (List ℚ)) (q : Str) (k : ℤ),
        retrieveRelevantChunks msqrt embedF2
          (initializeService embedF st text).1 q k = .error .notInitialized ∧
        getContext msqrt embedF2
          (initializeService embedF st text).1 q k = .error .notInitialized) ∧
    (∀ (embedF : Str → Option (List ℚ)) (st : RAGState) (text : Str),
      st.initialized = true →
      (initializeService embedF st text).1.initialized = true) := by
  refine ⟨?_, ?_, ?_, ?_⟩
  · intro embedF st text
    exact buildLoop_append embedF (splitIntoChunks text 1000 200) 0 st
  · intro embedF st text h
    exact buildLoop_fail_initialized embedF (splitIntoChunks text 1000 200) 0 st h
  · intro embedF st text h0 hfail msqrt embedF2 q k
    have hinit : (initializeService embedF st text).1.initialized = false :=
      (buildLoop_fail_initialized embedF (splitIntoChunks text 1000 200) 0 st
        hfail).trans h0
    refine ⟨retrieve_not_ready _ _ _ _ _ hinit, ?_⟩
    exact getContext_error _ _ _ _ _ _ (retrieve_not_ready _ _ _ _ _ hinit)
  · intro embedF st text h1
    cases hb : (initializeService embedF st text).2 with
    | false =>
      exact (buildLoop_fail_initialized embedF (splitIntoChunks text 1000 200)
        0 st hb).trans h1
    | true =>
      exact buildLoop_ok_initialized embedF (splitIntoChunks text 1000 200) 0 st hb

/-- C1, witness for the amended theorem: a failing build (the provider fails
on the only chunk of `"a."`) from the fresh state leaves the service
non-ready and both query entry points throwing the not-initialized error. -/
theorem c1_amended_witness :
    initState.initialized = false ∧
    (initializeService (fun _ => none) initState (strL "a.")).2 = false ∧
    (retrieveRelevantChunks sqrtModel (fun _ => some [1])
        (initializeService (fun _ => none) initState (strL "a.")).1
        (strL "q") 3 = .error .notInitialized ∧
      getContext sqrtModel (fun _ => some [1])
        (initializeService (fun _ => none) initState (strL "a.")).1
        (strL "q") 3 = .error .notInitialized) :=
  ⟨rfl, by decide,
    c1_amended.2.2.1 (fun _ => none) initState (strL "a.") rfl (by decide)
      sqrtModel (fun _ => some [1]) (strL "q") 3⟩

/-- C3: calling `retrieveRelevantChunks` or `getContext` while
`this.initialized` is false (the state of the service before any successful
`initialize` has completed, by the preceding build lemmas) throws the
not-initialized error — it never returns an empty-but-valid sequence. -/
theorem c3_not_ready_fails_fast (msqrt : ℚ → ℚ)
    (embedF : Str → Option (List ℚ)) (st : RAGState) (query : Str)
    (topK : ℤ) (h : st.initialized = false) :
    retrieveRelevantChunks msqrt embedF st query topK =
      .error .notInitialized ∧
    getContext msqrt embedF st query topK = .error .notInitialized :=
  ⟨retrieve_not_ready _ _ _ _ _ h,
    getContext_error _ _ _ _ _ _ (retrieve_not_ready _ _ _ _ _ h)⟩

/-- The comparator order on two finite similarities is the strict order on
their values. -/
theorem sortBefore_real (x y : ℚ) :
    sortBefore (.real x) (.real y) = decide (y < x) := by
  have h3 : y < x ↔ y - x < 0 := by constructor <;> intro <;> linarith
  simp only [sortBefore, jsub, cmpSign]
  by_cases h1 : y - x < 0
  · simp [h1, h3.mpr h1]
  · by_cases h2 : 0 < y - x
    · have hx : ¬y < x := fun hc => h1 (h3.mp hc)
      simp [h1, h2, hx]
    · have hx : ¬y < x := fun hc => h1 (h3.mp hc)
      simp [h1, h2, hx]

/-- Stable insertion permutes: the result is the element on top of the
list. -/
theorem insertDesc_perm (c : Scored) :
    ∀ l, List.Perm (insertDesc c l) (c :: l) := by
  intro l
  induction l with
  | nil => simp [insertDesc]
  | cons x xs ih =>
    by_cases h : sortBefore c.similarity x.similarity
    · simp [insertDesc, h]
    · simp only [insertDesc, h, if_neg, Bool.false_eq_true, not_false_iff]
      exact (ih.cons x).trans (List.Perm.swap c x xs)

/-- The insertion fold permutes: sorting never adds or drops a score. -/
theorem foldl_insert_perm :
    ∀ (rest acc : List Scored),
      List.Perm (rest.foldl (fun a c => insertDesc c a) acc) (acc ++ rest) := by
  intro rest
  induction rest with
  | nil => intro acc; simp
  | cons c rest ih =>
    intro acc
    exact (ih (insertDesc c acc)).trans
      (((insertDesc_perm c acc).append_right rest).trans List.perm_middle.symm)

/-- `sortScores` permutes its input. -/
theorem sortScores_perm (l : List Scored) : List.Perm (sortScores l) l := by
  simpa using foldl_insert_perm l []

/-- Inserting a finite-similarity score into a descending-sorted list of
finite-similarity scores keeps it descending-sorted. -/
theorem insertDesc_sorted (c : Scored) (hc : isRealSim c) :
    ∀ l, (∀ y ∈ l, isRealSim y) → l.Pairwise simGe →
      (insertDesc c l).Pairwise simGe := by
  obtain ⟨cx, hcx⟩ := hc
  intro l
  induction l with
  | nil => intro _ _; simp [insertDesc]
  | cons x xs ih =>
    intro hreal hp
    obtain ⟨xx, hxx⟩ := hreal x (List.mem_cons_self x xs)
    rw [List.pairwise_cons] at hp
    by_cases h : sortBefore c.similarity x.similarity
    · have hgt : xx < cx := by
        rw [hcx, hxx, sortBefore_real] at h
        exact of_decide_eq_true h
      simp only [insertDesc, h, if_pos]
      refine List.pairwise_cons.mpr ⟨?_, List.pairwise_cons.mpr hp⟩
      intro y hy
      rcases List.mem_cons.mp hy with rfl | hy
      · exact ⟨cx, xx, hcx, hxx, le_of_lt hgt⟩
      · obtain ⟨a, b, ha, hb, hba⟩ := hp.1 y hy
        have hax : a = xx := (JSNum.real.injEq _ _).mp (ha.symm.trans hxx)
        exact ⟨cx, b, hcx, hb, le_of_lt (lt_of_le_of_lt (hax ▸ hba) hgt)⟩
    · have hle : cx ≤ xx := by
        rw [hcx, hxx, sortBefore_real] at h
        exact le_of_not_lt (of_decide_eq_false (Bool.of_not_eq_true h))
      simp only [insertDesc, h, if_neg, Bool.false_eq_true, not_false_iff]
      refine List.pairwise_cons.mpr
        ⟨?_, ih (fun y hy => hreal y (List.mem_cons_of_mem x hy)) hp.2⟩
      intro y hy
      rcases List.mem_cons.mp ((insertDesc_perm c xs).mem_iff.mp hy) with rfl | hy
      · exact ⟨xx, cx, hxx, hcx, hle⟩
      · exact hp.1 y hy

/-- Stable insertion preserves the id-ascending tie order, provided the new
(later) element ties upward of everything already placed. -/
theorem insertDesc_tie (c : Scored) (hc : isRealSim c) :
    ∀ l, (∀ y ∈ l, isRealSim y) → l.Pairwise simGe → l.Pairwise tieLt →
      (∀ y ∈ l, tieLt y c) → (insertDesc c l).Pairwise tieLt := by
  obtain ⟨cx, hcx⟩ := hc
  intro l
  induction l with
  | nil => intro _ _ _ _; simp [insertDesc]
  | cons x xs ih =>
    intro hreal hp ht hup
    obtain ⟨xx, hxx⟩ := hreal x (List.mem_cons_self x xs)
    rw [List.pairwise_cons] at hp ht
    by_cases h : sortBefore c.similarity x.similarity
    · have hgt : xx < cx := by
        rw [hcx, hxx, sortBefore_real] at h
        exact of_decide_eq_true h
      simp only [insertDesc, h, if_pos]
      refine List.pairwise_cons.mpr ⟨?_, List.pairwise_cons.mpr ht⟩
      intro y hy heq
      rcases List.mem_cons.mp hy with rfl | hy
      · rw [hcx, hxx] at heq
        exact absurd ((JSNum.real.injEq _ _).mp heq) (by intro hh; rw [hh] at hgt; exact lt_irrefl _ hgt)
      · obtain ⟨a, b, ha, hb, hba⟩ := hp.1 y hy
        have hax : a = xx := (JSNum.real.injEq _ _).mp (ha.symm.trans hxx)
        rw [hcx, hb] at heq
        have hcb : cx = b := (JSNum.real.injEq _ _).mp heq
        exact absurd hgt (not_lt_of_le (hcb ▸ hax ▸ hba))
    · simp only [insertDesc, h, if_neg, Bool.false_eq_true, not_false_iff]
      refine List.pairwise_cons.mpr
        ⟨?_, ih (fun y hy => hreal y (List.mem_cons_of_mem x hy)) hp.2 ht.2
          (fun y hy => hup y (List.mem_cons_of_mem x hy))⟩
      intro y hy
      rcases List.mem_cons.mp ((insertDesc_perm c xs).mem_iff.mp hy) with rfl | hy
      · exact hup x (List.mem_cons_self x xs)
      · exact ht.1 y hy

/-- The insertion fold yields a descending-sorted list that keeps ties in
id-ascending order, for finite similarities and an id-ascending-on-ties
input. -/
theorem foldl_insert_sorted :
    ∀ (rest acc : List Scored),
      (∀ y ∈ acc, isRealSim y) → (∀ y ∈ rest, isRealSim y) →
      acc.Pairwise simGe → acc.Pairwise tieLt →
      (∀ c ∈ rest, ∀ y ∈ acc, tieLt y c) → rest.Pairwise tieLt →
      (rest.foldl (fun a c => insertDesc c a) acc).Pairwise simGe ∧
        (rest.foldl (fun a c => insertDesc c a) acc).Pairwise tieLt := by
  intro rest
  induction rest with
  | nil => intro acc _ _ h1 h2 _ _; exact ⟨h1, h2⟩
  | cons c rest ih =>
    intro acc hareal hrreal h1 h2 hcross htr
    rw [List.pairwise_cons] at htr
    have hcr : isRealSim c := hrreal c (List.mem_cons_self c rest)
    have hreal' : ∀ y ∈ insertDesc c acc, isRealSim y := by
      intro y hy
      rcases List.mem_cons.mp ((insertDesc_perm c acc).mem_iff.mp hy) with rfl | hy
      · exact hcr
      · exact hareal y hy
    refine ih (insertDesc c acc) hreal'
      (fun y hy => hrreal y (List.mem_cons_of_mem c hy))
      (insertDesc_sorted c hcr acc hareal h1)
      (insertDesc_tie c hcr acc hareal h1 h2
        (fun y hy => hcross c (List.mem_cons_self c rest) y hy))
      ?_ htr.2
    intro d hd y hy
    rcases List.mem_cons.mp ((insertDesc_perm c acc).mem_iff.mp hy) with rfl | hy
    · exact htr.1 d hd
    · exact hcross d (List.mem_cons_of_mem c hd) y hy

/-- `sortScores` on finite similarities: descending-sorted, ties kept in the
input's order. -/
theorem sortScores_sorted (l : List Scored) (hreal : ∀ y ∈ l, isRealSim y)
    (htie : l.Pairwise tieLt) :
    (sortScores l).Pairwise simGe ∧ (sortScores l).Pairwise tieLt :=
  foldl_insert_sorted l [] (by simp) hreal (by simp) (by simp) (by simp) htie

/-- Sortedness alone (no tie hypothesis needed): the insertion fold of
finite-similarity scores is descending-sorted. -/
theorem foldl_insert_sorted_only :
    ∀ (rest acc : List Scored),
      (∀ y ∈ acc, isRealSim y) → (∀ y ∈ rest, isRealSim y) →
      acc.Pairwise simGe →
      (rest.foldl (fun a c => insertDesc c a) acc).Pairwise simGe := by
  intro rest
  induction rest with
  | nil => intro acc _ _ h1; exact h1
  | cons c rest ih =>
    intro acc hareal hrreal h1
    have hcr : isRealSim c := hrreal c (List.mem_cons_self c rest)
    refine ih (insertDesc c acc) ?_
      (fun y hy => hrreal y (List.mem_cons_of_mem c hy))
      (insertDesc_sorted c hcr acc hareal h1)
    intro y hy
    rcases List.mem_cons.mp ((insertDesc_perm c acc).mem_iff.mp hy) with rfl | hy
    · exact hcr
    · exact hareal y hy

/-- `sortScores` sorts descending whenever every similarity is finite. -/
theorem sortScores_sorted_only (l : List Scored)
    (hreal : ∀ y ∈ l, isRealSim y) : (sortScores l).Pairwise simGe :=
  foldl_insert_sorted_only l [] (by simp) hreal (by simp)

/-- C4: for a ready index whose chunk ids are strictly increasing (as a
single completed build lays them out) and a query embedding under which all
similarities are finite, any list `retrieveRelevantChunks` returns is
descending-sorted by similarity with ties resolved by ascending chunk id.
The model is a pure function of the state and query embedding, so repeated
calls return this same list: the ranking is deterministic. -/
theorem c4_deterministic_ranking (msqrt : ℚ → ℚ)
    (embedF : Str → Option (List ℚ)) (st : RAGState) (query : Str)
    (topK : ℤ) (qe : List ℚ) (l : List Scored)
    (hinit : st.initialized = true) (hq : embedF query = some qe)
    (hids : st.documentChunks.Pairwise fun a b => a.id < b.id)
    (hreal : ∀ c ∈ st.documentChunks,
      ∃ x : ℚ, cosineSimilarity msqrt qe c.embedding = .real x)
    (hres : retrieveRelevantChunks msqrt embedF st query topK = .ok l) :
    l.Pairwise simGe ∧ l.Pairwise tieLt := by
  rw [retrieve_ready msqrt embedF st query topK qe hinit hq] at hres
  have hl : l = jsSliceTo (sortScores (scoredChunks msqrt qe st)) topK :=
    ((Except.ok.injEq _ _).mp hres).symm
  have hrealS : ∀ y ∈ scoredChunks msqrt qe st, isRealSim y := by
    intro y hy
    obtain ⟨c, hc, rfl⟩ := List.mem_map.mp hy
    obtain ⟨x, hx⟩ := hreal c hc
    exact ⟨x, hx⟩
  have htieS : (scoredChunks msqrt qe st).Pairwise tieLt :=
    List.pairwise_map.mpr (hids.imp fun h => fun _ => h)
  obtain ⟨hs1, hs2⟩ := sortScores_sorted _ hrealS htieS
  have hsub : List.Sublist (jsSliceTo (sortScores (scoredChunks msqrt qe st)) topK)
      (sortScores (scoredChunks msqrt qe st)) := by
    unfold jsSliceTo; split <;> exact List.take_sublist _ _
  rw [hl]
  exact ⟨hs1.sublist hsub, hs2.sublist hsub⟩

/-- C4, witness: a ready two-chunk index whose chunks tie at similarity 1
is returned in id order, descending-sorted. -/
theorem c4_witness :
    retrieveRelevantChunks sqrtModel (fun _ => some [1])
        ⟨[⟨0, strL "a", [1]⟩, ⟨1, strL "b", [1]⟩], true⟩ (strL "q") 3 =
      .ok [⟨0, strL "a", [1], .real 1⟩, ⟨1, strL "b", [1], .real 1⟩] ∧
    ([⟨0, strL "a", [1], .real 1⟩,
      ⟨1, strL "b", [1], .real 1⟩] : List Scored).Pairwise simGe ∧
    ([⟨0, strL "a", [1], .real 1⟩,
      ⟨1, strL "b", [1], .real 1⟩] : List Scored).Pairwise tieLt := by
  have hres : retrieveRelevantChunks sqrtModel (fun _ => some [1])
      ⟨[⟨0, strL "a", [1]⟩, ⟨1, strL "b", [1]⟩], true⟩ (strL "q") 3 =
      .ok [⟨0, strL "a", [1], .real 1⟩, ⟨1, strL "b", [1], .real 1⟩] := by
    norm_num [retrieveRelevantChunks, scoredChunks, sortScores, insertDesc,
      sortBefore, jsub, cmpSign, cosineSimilarity, dotProduct, sumSq, jsDiv,
      jsSliceTo, sqrtModel]
  refine ⟨hres, ?_⟩
  refine c4_deterministic_ranking sqrtModel (fun _ => some [1])
    ⟨[⟨0, strL "a", [1]⟩, ⟨1, strL "b", [1]⟩], true⟩ (strL "q") 3 [1] _
    rfl rfl ?_ ?_ hres
  · exact List.pairwise_cons.mpr
      ⟨by intro b hb; simp at hb; subst hb; exact Nat.zero_lt_one,
        List.pairwise_singleton _ _⟩
  · intro c hc
    refine ⟨1, ?_⟩
    rcases List.mem_cons.mp hc with rfl | hc
    · norm_num [cosineSimilarity, dotProduct, sumSq, jsDiv, sqrtModel]
    · rcases List.mem_cons.mp hc with rfl | hc
      · norm_num [cosineSimilarity, dotProduct, sumSq, jsDiv, sqrtModel]
      · exact absurd hc (List.not_mem_nil c)

/-- C2, counterexample.  The claim asserts that `topK ≤ 0` always yields an
empty sequence, but `scores.slice(0, topK)` follows JavaScript `slice`
semantics for a negative end index: on a ready two-chunk index,
`topK = -1` returns one chunk, not none. -/
theorem c2_counterexample :
    (-1 : ℤ) ≤ 0 ∧
    retrieveRelevantChunks sqrtModel (fun _ => some [1])
        ⟨[⟨0, strL "a", [1]⟩, ⟨1, strL "b", [1]⟩], true⟩ (strL "q") (-1) =
      .ok [⟨0, strL "a", [1], .real 1⟩] ∧
    (.ok [⟨0, strL "a", [1], .real 1⟩] :
      Except RagError (List Scored)) ≠ .ok [] := by
  refine ⟨by norm_num, ?_, by simp⟩
  norm_num [retrieveRelevantChunks, scoredChunks, sortScores, insertDesc,
    sortBefore, jsub, cmpSign, cosineSimilarity, dotProduct, sumSq, jsDiv,
    jsSliceTo, sqrtModel]

/-- C2, amended.  For a ready index and a successfully embedded query:
`topK = 0` returns the empty sequence; any `topK ≥ 0` returns exactly
`min(topK, |Index|)` chunks; `topK ≥ |Index|` returns the whole index
sorted (a permutation of the scored chunks, descending-sorted whenever the
similarities are finite); but a negative `topK` follows JavaScript `slice`
semantics and returns the first `max(|Index| + topK, 0)` chunks of the
sorted index, so `topK ≤ 0` does not always give an empty sequence. -/
theorem c2_amended_topk (msqrt : ℚ → ℚ) (embedF : Str → Option (List ℚ))
    (st : RAGState) (query : Str) (qe : List ℚ)
    (hinit : st.initialized = true) (hq : embedF query = some qe) :
    retrieveRelevantChunks msqrt embedF st query 0 = .ok [] ∧
    (∀ k : ℤ, 0 ≤ k →
      ∃ l, retrieveRelevantChunks msqrt embedF st query k = .ok l ∧
        l.length = min k.toNat st.documentChunks.length) ∧
    (∀ k : ℤ, (st.documentChunks.length : ℤ) ≤ k →
      retrieveRelevantChunks msqrt embedF st query k =
        .ok (sortScores (scoredChunks msqrt qe st)) ∧
      List.Perm (sortScores (scoredChunks msqrt qe st))
        (scoredChunks msqrt qe st)) ∧
    ((∀ c ∈ st.documentChunks,
        ∃ x : ℚ, cosineSimilarity msqrt qe c.embedding = .real x) →
      (sortScores (scoredChunks msqrt qe st)).Pairwise simGe) ∧
    (∀ k : ℤ, k < 0 →
      ∃ l, retrieveRelevantChunks msqrt embedF st query k = .ok l ∧
        l.length = ((st.documentChunks.length : ℤ) + k).toNat) := by
  have hlen : (sortScores (scoredChunks msqrt qe st)).length =
      st.documentChunks.length := by
    rw [(sortScores_perm _).length_eq]
    simp [scoredChunks]
  refine ⟨?_, ?_, ?_, ?_, ?_⟩
  · rw [retrieve_ready msqrt embedF st query 0 qe hinit hq]
    simp [jsSliceTo]
  · intro k hk
    rw [retrieve_ready msqrt embedF st query k qe hinit hq]
    refine ⟨_, rfl, ?_⟩
    rw [jsSliceTo, if_neg (by omega)]
    rw [List.length_take, hlen]
  · intro k hk
    rw [retrieve_ready msqrt embedF st query k qe hinit hq]
    refine ⟨?_, sortScores_perm _⟩
    rw [jsSliceTo, if_neg (by omega)]
    rw [List.take_of_length_le (by rw [hlen]; omega)]
  · intro hreal
    refine sortScores_sorted_only _ ?_
    intro y hy
    obtain ⟨c, hc, rfl⟩ := List.mem_map.mp hy
    obtain ⟨x, hx⟩ := hreal c hc
    exact ⟨x, hx⟩
  · intro k hk
    rw [retrieve_ready msqrt embedF st query k qe hinit hq]
    refine ⟨_, rfl, ?_⟩
    rw [jsSliceTo, if_pos hk]
    rw [List.length_take, hlen]
    omega

/-- C2, witness: on a ready two-chunk index, `topK = 0` yields the empty
sequence. -/
theorem c2_witness :
    retrieveRelevantChunks sqrtModel (fun _ => some [1])
      ⟨[⟨0, strL "a", [1]⟩, ⟨1, strL "b", [1]⟩], true⟩ (strL "q") 0 =
      .ok [] :=
  (c2_amended_topk sqrtModel (fun _ => some [1])
    ⟨[⟨0, strL "a", [1]⟩, ⟨1, strL "b", [1]⟩], true⟩ (strL "q") [1]
    rfl rfl).1

/-- C5: on the three-chunk index with embeddings `[1,0]`, `[0,1]`,
`[0.7,0.7]` and a query embedded as `[1,0]`, `retrieveRelevantChunks` with
`topK = 2` returns the `[1,0]` chunk first with similarity exactly 1, then
the `[0.7,0.7]` chunk, and omits the `[0,1]` chunk (similarity 0); the
second similarity `0.7 / √0.98` lies strictly between 0.7 and 1 (≈ 0.707).
The hypotheses on `msqrt` hold for the correctly rounded `Math.sqrt`:
`√1 = 1` exactly, and `√0.98 ≈ 0.98995` lies in `(0.7, 1)`. -/
theorem c5_end_to_end (msqrt : ℚ → ℚ)
    (h1 : msqrt 1 = 1) (hlo : 7/10 < msqrt (49/50)) (hhi : msqrt (49/50) < 1) :
    retrieveRelevantChunks msqrt (fun _ => some [1, 0])
        ⟨[⟨0, strL "c0", [1, 0]⟩, ⟨1, strL "c1", [0, 1]⟩,
          ⟨2, strL "c2", [7/10, 7/10]⟩], true⟩ (strL "q") 2 =
      .ok [⟨0, strL "c0", [1, 0], .real 1⟩,
           ⟨2, strL "c2", [7/10, 7/10], .real (7/10 / msqrt (49/50))⟩] ∧
    (7/10 : ℚ) < 7/10 / msqrt (49/50) ∧ (7/10 / msqrt (49/50) : ℚ) < 1 := by
  have hmpos : (0:ℚ) < msqrt (49/50) := lt_trans (by norm_num) hlo
  have hm0 : msqrt (49/50) ≠ 0 := ne_of_gt hmpos
  have hv0 : (0:ℚ) < 7/10 / msqrt (49/50) := div_pos (by norm_num) hmpos
  have hv1 : (7/10 : ℚ) / msqrt (49/50) < 1 := (div_lt_one hmpos).mpr hlo
  have hvlo : (7/10 : ℚ) < 7/10 / msqrt (49/50) := by
    rw [lt_div_iff₀ hmpos]
    nlinarith
  refine ⟨?_, hvlo, hv1⟩
  have e0 : cosineSimilarity msqrt [1, 0] [1, 0] = .real 1 := by
    norm_num [cosineSimilarity, dotProduct, sumSq, jsDiv, h1]
  have e1 : cosineSimilarity msqrt [1, 0] [0, 1] = .real 0 := by
    norm_num [cosineSimilarity, dotProduct, sumSq, jsDiv, h1]
  have e2 : cosineSimilarity msqrt [1, 0] [7/10, 7/10] =
      .real (7/10 / msqrt (49/50)) := by
    norm_num [cosineSimilarity, dotProduct, sumSq, jsDiv, h1, hm0]
  rw [retrieve_ready msqrt (fun _ => some [1, 0]) _ (strL "q") 2 [1, 0] rfl rfl]
  simp only [scoredChunks, List.map, e0, e1, e2]
  simp only [sortScores, List.foldl, insertDesc, sortBefore_real,
    decide_eq_true_eq]
  rw [if_neg (not_lt.mpr hv1.le), if_pos hv0]
  simp [jsSliceTo]

/-- C5, witness: the same retrieval evaluated at the concrete square-root
model. -/
theorem c5_witness :
    retrieveRelevantChunks sqrtModel (fun _ => some [1, 0])
        ⟨[⟨0, strL "c0", [1, 0]⟩, ⟨1, strL "c1", [0, 1]⟩,
          ⟨2, strL "c2", [7/10, 7/10]⟩], true⟩ (strL "q") 2 =
      .ok [⟨0, strL "c0", [1, 0], .real 1⟩,
           ⟨2, strL "c2", [7/10, 7/10], .real (7/10 / sqrtModel (49/50))⟩] :=
  (c5_end_to_end sqrtModel (by norm_num [sqrtModel])
    (by norm_num [sqrtModel]) (by norm_num [sqrtModel])).1

/-- A fold adding only zero contributions returns its accumulator. -/
theorem foldl_add_zero {α : Type} (g : α → ℚ) :
    ∀ (l : List α) (acc : ℚ), (∀ p ∈ l, g p = 0) →
      l.foldl (fun s p => s + g p) acc = acc := by
  intro l
  induction l with
  | nil => intro acc _; rfl
  | cons p rest ih =>
    intro acc h
    have hp : g p = 0 := h p (List.mem_cons_self p rest)
    have : acc + g p = acc := by rw [hp, add_zero]
    simp only [List.foldl, this]
    exact ih acc fun q hq => h q (List.mem_cons_of_mem p hq)

/-- The squared magnitude of an all-zero vector is 0. -/
theorem sumSq_zero (v : List ℚ) (h : ∀ x ∈ v, x = 0) : sumSq v = 0 :=
  foldl_add_zero (fun a => a * a) v 0
    (fun p hp => by show p * p = 0; rw [h p hp, mul_zero])

/-- The dot product against an all-zero right vector is 0. -/
theorem dotProduct_zero_right (a b : List ℚ) (h : ∀ x ∈ b, x = 0) :
    dotProduct a b = 0 :=
  foldl_add_zero (fun p : ℚ × ℚ => p.1 * p.2) (a.zip b) 0
    (fun p hp => by
      show p.1 * p.2 = 0
      rw [h p.2 (List.of_mem_zip hp).2, mul_zero])

/-- The dot product against an all-zero left vector is 0. -/
theorem dotProduct_zero_left (a b : List ℚ) (h : ∀ x ∈ a, x = 0) :
    dotProduct a b = 0 :=
  foldl_add_zero (fun p : ℚ × ℚ => p.1 * p.2) (a.zip b) 0
    (fun p hp => by
      show p.1 * p.2 = 0
      rw [h p.1 (List.of_mem_zip hp).1, zero_mul])

/-- C8, counterexample.  The claim asserts the zero-magnitude case yields
similarity 0; on the code it is the JavaScript division `0/0 = NaN`: the
similarity of `[1]` against the zero vector `[0]` is `NaN`, and `NaN` is
not the number 0. -/
theorem c8_counterexample :
    cosineSimilarity sqrtModel [1] [0] = .nan ∧
    JSNum.nan ≠ JSNum.real 0 := by
  refine ⟨?_, by simp⟩
  norm_num [cosineSimilarity, dotProduct, sumSq, jsDiv, sqrtModel]

/-- C8, amended.  The similarity is `dot(a,b) / (‖a‖·‖b‖)` computed with
JavaScript division (definitionally), and when either vector is all zeros
(so its magnitude is zero, using `Math.sqrt 0 = 0`) the division is `0/0`,
which yields `NaN` — no error is raised, but the result is `NaN`, not 0. -/
theorem c8_amended :
    (∀ (msqrt : ℚ → ℚ) (a b : List ℚ),
      cosineSimilarity msqrt a b =
        jsDiv (dotProduct a b) (msqrt (sumSq a) * msqrt (sumSq b))) ∧
    (∀ (msqrt : ℚ → ℚ) (a b : List ℚ), msqrt 0 = 0 → (∀ x ∈ b, x = 0) →
      cosineSimilarity msqrt a b = .nan) ∧
    (∀ (msqrt : ℚ → ℚ) (a b : List ℚ), msqrt 0 = 0 → (∀ x ∈ a, x = 0) →
      cosineSimilarity msqrt a b = .nan) ∧
    JSNum.nan ≠ JSNum.real 0 := by
  refine ⟨fun _ _ _ => rfl, ?_, ?_, by simp⟩
  · intro msqrt a b h0 hz
    rw [cosineSimilarity, dotProduct_zero_right a b hz, sumSq_zero b hz, h0,
      mul_zero]
    simp [jsDiv]
  · intro msqrt a b h0 hz
    rw [cosineSimilarity, dotProduct_zero_left a b hz, sumSq_zero a hz, h0,
      zero_mul]
    simp [jsDiv]

/-- C8, witness for the amended theorem: the all-zero two-dimensional
vector also produces `NaN`. -/
theorem c8_witness : cosineSimilarity sqrtModel [1] [0, 0] = .nan :=
  c8_amended.2.1 sqrtModel [1] [0, 0] (by norm_num [sqrtModel])
    (by intro x hx; rcases List.mem_cons.mp hx with rfl | hx
        · rfl
        · rcases List.mem_cons.mp hx with rfl | hx
          · rfl
          · exact absurd hx (List.not_mem_nil x))

/-- Every character `natCharsCore` adds to a digit-only accumulator is a
decimal digit. -/
theorem natCharsCore_digits :
    ∀ (fuel n : ℕ) (acc : Str), (∀ c ∈ acc, c.isDigit = true) →
      ∀ c ∈ natCharsCore fuel n acc, c.isDigit = true := by
  have hd : ∀ d : ℕ, d < 10 → (Nat.digitChar d).isDigit = true := by
    intro d h
    interval_cases d <;> rfl
  intro fuel
  induction fuel with
  | zero => intro n acc hacc; exact hacc
  | succ fuel ih =>
    intro n acc hacc c hc
    rw [natCharsCore] at hc
    by_cases hn : n < 10
    · rw [if_pos hn] at hc
      rcases List.mem_cons.mp hc with rfl | hc
      · exact hd n hn
      · exact hacc c hc
    · rw [if_neg hn] at hc
      refine ih (n / 10) (Nat.digitChar (n % 10) :: acc) ?_ c hc
      intro d hdm
      rcases List.mem_cons.mp hdm with rfl | hdm
      · exact hd _ (Nat.mod_lt n (by norm_num))
      · exact hacc d hdm

/-- The decimal rendering of a natural number is made of digits only. -/
theorem natChars_digits (n : ℕ) : ∀ c ∈ natChars n, c.isDigit = true :=
  natCharsCore_digits (n + 1) n [] (by simp)

/-- Every rendered context block begins with the literal `[`. -/
theorem ctxBlock_head (i : ℕ) (c : CtxItem) :
    ∃ r, ctxBlock i c = '[' :: r :=
  ⟨strL "Context " ++ natChars (i + 1) ++ strL "] (Relevance: " ++
    c.similarity ++ strL ")\n" ++ c.text, rfl⟩

/-- Joining a non-empty block list starts with the first block. -/
theorem joinSep_cons (sep : Str) (x : Str) (xs : List Str) :
    ∃ r, joinSep sep (x :: xs) = x ++ r := by
  cases xs with
  | nil => exact ⟨[], by simp [joinSep]⟩
  | cons y ys => exact ⟨sep ++ joinSep sep (y :: ys), by simp [joinSep]⟩

/-- C9: `formatContextForPrompt` is total by construction; on the empty
sequence it returns the fixed sentinel; on a non-empty sequence it returns
the 1-indexed labelled blocks (each interpolating the item's similarity
string and then its text) joined by the `\n\n---\n\n` delimiter, and that
rendering is never equal to the sentinel. -/
theorem c9_formatter_total :
    formatContextForPrompt [] = noContextMsg ∧
    (∀ l : List CtxItem, l ≠ [] →
      formatContextForPrompt l =
        joinSep (strL "\n\n---\n\n") (mapIdxFrom ctxBlock 0 l)) ∧
    (∀ l : List CtxItem, l ≠ [] →
      formatContextForPrompt l ≠ noContextMsg) := by
  have hfmt : ∀ l : List CtxItem, l ≠ [] →
      formatContextForPrompt l =
        joinSep (strL "\n\n---\n\n") (mapIdxFrom ctxBlock 0 l) := by
    intro l hl
    rw [formatContextForPrompt, if_neg]
    simpa using hl
  refine ⟨by simp [formatContextForPrompt, noContextMsg], hfmt, ?_⟩
  intro l hl
  obtain ⟨c, l', rfl⟩ := List.exists_cons_of_ne_nil hl
  rw [hfmt _ hl]
  obtain ⟨r1, hr1⟩ := ctxBlock_head 0 c
  obtain ⟨r2, hr2⟩ := joinSep_cons (strL "\n\n---\n\n") (ctxBlock 0 c)
    (mapIdxFrom ctxBlock 1 l')
  intro hbad
  rw [show mapIdxFrom ctxBlock 0 (c :: l') =
      ctxBlock 0 c :: mapIdxFrom ctxBlock 1 l' from rfl, hr2, hr1] at hbad
  have := congrArg List.head? hbad
  simp [noContextMsg, strL] at this

/-- C9, witness: a concrete one-element rendering differs from the
sentinel. -/
theorem c9_witness :
    formatContextForPrompt [⟨strL "some text", strL "1.000"⟩] ≠
      noContextMsg :=
  c9_formatter_total.2.2 [⟨strL "some text", strL "1.000"⟩] (by simp)

/-- C10: a successful `getContext` is exactly the retrieval result with
each scored chunk projected to the two fields `text` and
`similarity = toFixed(3)` (a string); the three-fraction-digit shape of
that string for every finite similarity; each scored chunk of a successful
retrieval carries the `id`, `text` and `embedding` of a stored chunk plus
its raw cosine similarity; and the formatter interpolates the similarity
string verbatim into its block. -/
theorem c10_context_shape :
    (∀ (msqrt : ℚ → ℚ) (embedF : Str → Option (List ℚ)) (st : RAGState)
      (q : Str) (k : ℤ) (l : List Scored),
      retrieveRelevantChunks msqrt embedF st q k = .ok l →
      getContext msqrt embedF st q k =
        .ok (l.map fun c => ⟨c.text, toFixed3 c.similarity⟩)) ∧
    (∀ q : ℚ, ∃ pre ds, toFixed3 (.real q) = pre ++ '.' :: ds ∧
      ds.length = 3 ∧ (∀ c ∈ ds, c.isDigit = true) ∧
      (∀ c ∈ pre, c = '-' ∨ c.isDigit = true)) ∧
    (∀ (msqrt : ℚ → ℚ) (embedF : Str → Option (List ℚ)) (st : RAGState)
      (q : Str) (k : ℤ) (qe : List ℚ) (l : List Scored),
      st.initialized = true → embedF q = some qe →
      retrieveRelevantChunks msqrt embedF st q k = .ok l →
      ∀ x ∈ l, ∃ c ∈ st.documentChunks, x.id = c.id ∧ x.text = c.text ∧
        x.embedding = c.embedding ∧
        x.similarity = cosineSimilarity msqrt qe c.embedding) ∧
    (∀ (i : ℕ) (c : CtxItem), ctxBlock i c =
      strL "[Context " ++ natChars (i + 1) ++ strL "] (Relevance: " ++
        c.similarity ++ strL ")\n" ++ c.text) := by
  refine ⟨?_, ?_, ?_, fun i c => rfl⟩
  · intro msqrt embedF st q k l h
    simp [getContext, h, Except.map]
  · intro q
    refine ⟨(if q < 0 then ['-'] else []) ++
      natChars ((⌊(if q < 0 then -q else q) * 1000 + 1/2⌋ : ℤ).toNat / 1000),
      [Nat.digitChar ((⌊(if q < 0 then -q else q) * 1000 + 1/2⌋ : ℤ).toNat / 100 % 10),
       Nat.digitChar ((⌊(if q < 0 then -q else q) * 1000 + 1/2⌋ : ℤ).toNat / 10 % 10),
       Nat.digitChar ((⌊(if q < 0 then -q else q) * 1000 + 1/2⌋ : ℤ).toNat % 10)],
      ?_, rfl, ?_, ?_⟩
    · rw [toFixed3]
    · have hd : ∀ d : ℕ, d < 10 → (Nat.digitChar d).isDigit = true := by
        intro d h
        interval_cases d <;> rfl
      intro c hc
      rcases List.mem_cons.mp hc with rfl | hc
      · exact hd _ (Nat.mod_lt _ (by norm_num))
      · rcases List.mem_cons.mp hc with rfl | hc
        · exact hd _ (Nat.mod_lt _ (by norm_num))
        · rcases List.mem_cons.mp hc with rfl | hc
          · exact hd _ (Nat.mod_lt _ (by norm_num))
          · exact absurd hc (List.not_mem_nil c)
    · intro c hc
      rcases List.mem_append.mp hc with hc | hc
      · left
        by_cases hq : q < 0
        · rw [if_pos hq] at hc
          simpa using hc
        · rw [if_neg hq] at hc
          exact absurd hc (List.not_mem_nil c)
      · right
        exact natChars_digits _ c hc
  · intro msqrt embedF st q k qe l hinit hq hres x hx
    rw [retrieve_ready msqrt embedF st q k qe hinit hq] at hres
    have hl : l = jsSliceTo (sortScores (scoredChunks msqrt qe st)) k :=
      ((Except.ok.injEq _ _).mp hres).symm
    subst hl
    have hx2 : x ∈ sortScores (scoredChunks msqrt qe st) := by
      revert hx
      unfold jsSliceTo
      split <;> exact List.mem_of_mem_take
    have hx3 : x ∈ scoredChunks msqrt qe st :=
      (sortScores_perm _).mem_iff.mp hx2
    obtain ⟨c, hc, rfl⟩ := List.mem_map.mp hx3
    exact ⟨c, hc, rfl, rfl, rfl, rfl⟩

/-- C10, witness: the concrete one-chunk retrieval projected by
`getContext`. -/
theorem c10_witness :
    getContext sqrtModel (fun _ => some [1]) ⟨[⟨0, strL "a", [1]⟩], true⟩
      (strL "q") 3 = .ok [⟨strL "a", toFixed3 (.real 1)⟩] := by
  have hres : retrieveRelevantChunks sqrtModel (fun _ => some [1])
      ⟨[⟨0, strL "a", [1]⟩], true⟩ (strL "q") 3 =
      .ok [⟨0, strL "a", [1], .real 1⟩] := by
    norm_num [retrieveRelevantChunks, scoredChunks, sortScores, insertDesc,
      sortBefore, jsub, cmpSign, cosineSimilarity, dotProduct, sumSq, jsDiv,
      jsSliceTo, sqrtModel]
  have := c10_context_shape.1 sqrtModel (fun _ => some [1])
    ⟨[⟨0, strL "a", [1]⟩], true⟩ (strL "q") 3 _ hres
  simpa using this

/-- Trimming never lengthens a string. -/
theorem trim_length (s : Str) : (trim s).length ≤ s.length := by
  rw [trim]
  have hdw : ∀ (l : Str), (l.dropWhile wsChar).length ≤ l.length :=
    fun l => ((List.dropWhile_suffix wsChar).sublist).length_le
  calc ((s.dropWhile wsChar).reverse.dropWhile wsChar).reverse.length
      = ((s.dropWhile wsChar).reverse.dropWhile wsChar).length :=
        List.length_reverse _
    _ ≤ (s.dropWhile wsChar).reverse.length := hdw _
    _ = (s.dropWhile wsChar).length := List.length_reverse _
    _ ≤ s.length := hdw _

/-- The size invariant of the chunking loop: every emitted chunk either
fits in `chunkSize` or is the trim of an overlap seed followed by one
single sentence (drawn from the pool `S`); the final buffer satisfies the
same invariant before its trim. -/
theorem splitLoop_size (n o : ℕ) (S : List Str) :
    ∀ (ss : List Str) (cur : Str),
      (∀ s ∈ ss, s ∈ S) →
      (cur.length ≤ n ∨ ∃ pre s, s ∈ S ∧ cur = pre ++ s) →
      (∀ c ∈ (splitLoop n o ss cur).1,
        c.length ≤ n ∨ ∃ pre s, s ∈ S ∧ c = trim (pre ++ s)) ∧
      ((splitLoop n o ss cur).2.length ≤ n ∨
        ∃ pre s, s ∈ S ∧ (splitLoop n o ss cur).2 = pre ++ s) := by
  intro ss
  induction ss with
  | nil =>
    intro cur _ hcur
    exact ⟨fun c hc => absurd hc (List.not_mem_nil c), hcur⟩
  | cons s rest ih =>
    intro cur hss hcur
    have hs : s ∈ S := hss s (List.mem_cons_self s rest)
    by_cases h : (cur ++ s).length > n ∧ 0 < cur.length
    · have hrec := ih (seedOf o cur ++ s)
        (fun t ht => hss t (List.mem_cons_of_mem s ht))
        (Or.inr ⟨seedOf o cur, s, hs, rfl⟩)
      simp only [splitLoop, if_pos h]
      refine ⟨?_, hrec.2⟩
      intro c hc
      rcases List.mem_cons.mp hc with rfl | hc
      · rcases hcur with hle | ⟨pre, s', hs', hceq⟩
        · exact Or.inl (le_trans (trim_length cur) hle)
        · exact Or.inr ⟨pre, s', hs', by rw [hceq]⟩
      · exact hrec.1 c hc
    · have hcur' : (cur ++ s).length ≤ n ∨
          ∃ pre s', s' ∈ S ∧ cur ++ s = pre ++ s' := by
        rcases not_and_or.mp h with hlen | hpos
        · exact Or.inl (le_of_not_lt hlen)
        · have : cur = [] := by
            cases cur with
            | nil => rfl
            | cons a l => exact absurd (Nat.succ_pos l.length) hpos
          exact Or.inr ⟨[], s, hs, by rw [this]⟩
      have hrec := ih (cur ++ s)
        (fun t ht => hss t (List.mem_cons_of_mem s ht)) hcur'
      simp only [splitLoop, if_neg h]
      exact hrec

/-- C6, counterexample.  The claim bounds every chunk by
`targetSize + (length of the triggering sentence)`.  With `targetSize = 5`
and `overlap = 0` (so `slice(-0)` keeps the whole previous buffer as the
seed) the text `"aa.bb.cc.dd."` produces a 15-character chunk while every
sentence has length 3: the chunk exceeds `targetSize` by more than the
length of any sentence of the document, whichever one "triggered" it. -/
theorem c6_counterexample :
    sentences (strL "aa.bb.cc.dd.") =
      [strL "aa.", strL "bb.", strL "cc.", strL "dd."] ∧
    splitIntoChunks (strL "aa.bb.cc.dd.") 5 0 =
      [strL "aa.", strL "aa. bb.", strL "aa. bb. cc.",
        strL "aa. bb. cc. dd."] ∧
    ∃ c ∈ splitIntoChunks (strL "aa.bb.cc.dd.") 5 0,
      ∀ s ∈ sentences (strL "aa.bb.cc.dd."), 5 + s.length < c.length := by
  refine ⟨by decide, by decide, strL "aa. bb. cc. dd.", by decide, by decide⟩

/-- C6, amended.  Every chunk either fits within `targetSize`, or is the
trim of an overlap seed followed by one single sentence of the document —
the overshoot is confined to one sentence plus the seed inherited from the
previous buffer, and (as the counterexample shows) can exceed the length of
the sentence that triggered the split. -/
theorem c6_amended_chunk_size (text : Str) (n o : ℕ) :
    ∀ c ∈ splitIntoChunks text n o,
      c.length ≤ n ∨ ∃ pre s, s ∈ sentences text ∧ c = trim (pre ++ s) := by
  intro c hc
  have hmain := splitLoop_size n o (sentences text) (sentences text) []
    (fun s hsm => hsm) (Or.inl (by simp))
  rw [splitIntoChunks] at hc
  by_cases hflush :
      0 < (trim (splitLoop n o (sentences text) []).2).length
  · rw [if_pos hflush] at hc
    rcases List.mem_append.mp hc with hc | hc
    · exact hmain.1 c hc
    · have hceq : c = trim (splitLoop n o (sentences text) []).2 := by
        simpa using hc
      rcases hmain.2 with hle | ⟨pre, s, hsm, heq⟩
      · exact Or.inl (hceq ▸ le_trans (trim_length _) hle)
      · exact Or.inr ⟨pre, s, hsm, by rw [hceq, heq]⟩
  · rw [if_neg hflush] at hc
    exact hmain.1 c hc

/-- C6, witness for the amended theorem: the single 4-character chunk of
`"a.b."` fits within the default target size. -/
theorem c6_witness :
    strL "a.b." ∈ splitIntoChunks (strL "a.b.") 1000 200 ∧
    ((strL "a.b.").length ≤ 1000 ∨
      ∃ pre s, s ∈ sentences (strL "a.b.") ∧
        strL "a.b." = trim (pre ++ s)) :=
  ⟨by decide,
    c6_amended_chunk_size (strL "a.b.") 1000 200 (strL "a.b.") (by decide)⟩

/-- The coverage invariant of the chunking loop: the loop emits the trims
of a run of buffers `bufs` and ends with the buffer `fin`; each buffer
after the first starts with the overlap seed of its predecessor; the first
buffer extends the incoming buffer `cur`; and stripping each buffer's
inherited prefix and concatenating recovers exactly the sentences consumed,
in order. -/
theorem splitLoop_chain (n o : ℕ) :
    ∀ (ss : List Str) (cur : Str),
      ∃ bufs fin hb tb, splitLoop n o ss cur = (bufs.map trim, fin) ∧
        bufs ++ [fin] = hb :: tb ∧ cur <+: hb ∧
        List.Chain' (fun b b' => seedOf o b <+: b') (hb :: tb) ∧
        hb.drop cur.length ++ stripSeeds o hb tb = ss.flatten := by
  intro ss
  induction ss with
  | nil =>
    intro cur
    refine ⟨[], cur, cur, [], rfl, rfl, List.prefix_refl cur, ?_, ?_⟩
    · simp
    · simp [stripSeeds, List.drop_length]
  | cons s rest ih =>
    intro cur
    by_cases h : (cur ++ s).length > n ∧ 0 < cur.length
    · obtain ⟨bufs', fin', hb', tb', heq', hcons', hpre', hchain', hstrip'⟩ :=
        ih (seedOf o cur ++ s)
      obtain ⟨t, ht⟩ := hpre'
      refine ⟨cur :: bufs', fin', cur, bufs' ++ [fin'], ?_, rfl,
        List.prefix_refl cur, ?_, ?_⟩
      · simp only [splitLoop, if_pos h, heq', List.map]
      · rw [hcons']
        exact List.chain'_cons.mpr
          ⟨⟨s ++ t, by rw [← List.append_assoc, ht]⟩, hchain'⟩
      · rw [List.drop_length, List.nil_append, hcons', stripSeeds]
        have h1 : hb'.drop (seedOf o cur).length = s ++ t := by
          rw [← ht, List.append_assoc, List.drop_left]
        have h2 : hb'.drop (seedOf o cur ++ s).length = t := by
          rw [← ht, List.drop_left]
        rw [h2] at hstrip'
        rw [h1, List.append_assoc, hstrip']
        simp
    · obtain ⟨bufs', fin', hb', tb', heq', hcons', hpre', hchain', hstrip'⟩ :=
        ih (cur ++ s)
      obtain ⟨t, ht⟩ := hpre'
      refine ⟨bufs', fin', hb', tb', ?_, hcons',
        (List.prefix_append cur s).trans ⟨t, ht⟩, hchain', ?_⟩
      · simp only [splitLoop, if_neg h, heq']
      · have h1 : hb'.drop cur.length = s ++ t := by
          rw [← ht, List.append_assoc, List.drop_left]
        have h2 : hb'.drop (cur ++ s).length = t := by
          rw [← ht, List.drop_left]
        rw [h2] at hstrip'
        rw [h1, List.append_assoc, hstrip']
        simp

/-- C7, counterexample.  The claim says an input with no
sentence-terminating punctuation yields the whole text as a single chunk;
the code pushes `currentChunk.trim()`, so the text `" ab "` (no
punctuation) yields the single chunk `"ab"`, not the whole text. -/
theorem c7_counterexample :
    sentLoop (strL " ab ") [] [] = [] ∧
    splitIntoChunks (strL " ab ") 1000 200 = [strL "ab"] ∧
    strL "ab" ≠ strL " ab " := by
  refine ⟨by decide, by decide, by decide⟩

/-- C7, amended.  Empty input yields no chunks; an input with no
sentence-terminating punctuation yields the whole text trimmed as the
single chunk (no chunk at all if the text is entirely whitespace); and, in
general, the chunks are the trims of a run of buffers chained by the
overlap seeds, such that dropping each buffer's inherited seed prefix and
concatenating reproduces the full matched sentence sequence in order — no
sentence is dropped, and the only duplication is the overlap seeds. -/
theorem c7_amended_coverage :
    (∀ n o : ℕ, splitIntoChunks [] n o = []) ∧
    (∀ (text : Str) (n o : ℕ), sentLoop text [] [] = [] →
      splitIntoChunks text n o =
        if 0 < (trim text).length then [trim text] else []) ∧
    (∀ (text : Str) (n o : ℕ), ∃ bufs fin hb tb,
      splitIntoChunks text n o =
        bufs.map trim ++ (if 0 < (trim fin).length then [trim fin] else []) ∧
      bufs ++ [fin] = hb :: tb ∧
      List.Chain' (fun b b' => seedOf o b <+: b') (hb :: tb) ∧
      hb ++ stripSeeds o hb tb = (sentences text).flatten) := by
  refine ⟨?_, ?_, ?_⟩
  · intro n o
    simp [splitIntoChunks, sentences, sentLoop, splitLoop, trim]
  · intro text n o hm
    rw [splitIntoChunks]
    rw [show sentences text = [text] by simp [sentences, hm]]
    have hloop : splitLoop n o [text] [] = ([], text) := by
      simp [splitLoop]
    rw [hloop]
    by_cases ht : 0 < (trim text).length
    · rw [if_pos ht, if_pos ht]
      rfl
    · rw [if_neg ht, if_neg ht]
  · intro text n o
    obtain ⟨bufs, fin, hb, tb, heq, hcons, _hpre, hchain, hstrip⟩ :=
      splitLoop_chain n o (sentences text) []
    refine ⟨bufs, fin, hb, tb, ?_, hcons, hchain, ?_⟩
    · rw [splitIntoChunks, heq]
      by_cases ht : 0 < (trim fin).length
      · rw [if_pos ht, if_pos ht]
      · rw [if_neg ht, if_neg ht, List.append_nil]
    · simpa using hstrip

/-- C7, witness for the amended theorem: a punctuation-free input is
returned whole (trimmed) as one chunk. -/
theorem c7_witness :
    splitIntoChunks (strL "hello") 1000 200 = [strL "hello"] := by
  rw [c7_amended_coverage.2.1 (strL "hello") 1000 200 (by decide)]
  decide

/-- C3, witness: the freshly constructed service refuses both entry
points. -/
theorem c3_witness :
    initState.initialized = false ∧
    (retrieveRelevantChunks sqrtModel (fun _ => some [1]) initState
        (strL "q") 3 = .error .notInitialized ∧
      getContext sqrtModel (fun _ => some [1]) initState (strL "q") 3 =
        .error .notInitialized) :=
  ⟨rfl, c3_not_ready_fails_fast sqrtModel (fun _ => some [1]) initState
    (strL "q") 3 rfl⟩

end RAG

